import Mathlib

/-!
Verification of the LABTEST_AI repository.

Part 1 (`GA` namespace) embeds `src/q1_ai_lab_test.py`: a genetic algorithm
for the OneMax problem.  The numpy random generator is modelled as an
explicit state `Rng` carrying deterministic value streams; `rng.random()`
values are normalised into `[0,1)` with `Int.fract`, and bounded integer
draws are produced with `%`, so every universal theorem over `Rng` covers
every realisable stream of the concrete generator.

Part 2 (`RuleEngine` namespace) embeds `src/q2_ai_lab_test_.py`: a
priority-based forward-chaining rule engine for an air-conditioner
controller.  Python comparison errors (ordering between incomparable
types) are modelled with `Except Unit`.
-/

namespace GA

/-- A genome: a row of the numpy population matrix, a list of 0/1 bits. -/
abbrev Genome := List Nat

/-- Model of `np.random.default_rng`: deterministic streams of float and
integer draws plus cursors.  `floats` is normalised into `[0,1)` at use
sites, matching `rng.random()`; `ints` is reduced mod the requested range,
matching `rng.integers`. -/
structure Rng where
  floats : Nat → ℚ
  ints : Nat → Nat
  fidx : Nat
  iidx : Nat

/-- `rng.random()`: one float in `[0,1)`. -/
def Rng.randFloat (g : Rng) : ℚ × Rng :=
  (Int.fract (g.floats g.fidx), { g with fidx := g.fidx + 1 })

/-- `rng.random(n)`: a vector of `n` floats in `[0,1)`. -/
def Rng.randVec (g : Rng) (n : Nat) : List ℚ × Rng :=
  ((List.range n).map (fun i => Int.fract (g.floats (g.fidx + i))),
   { g with fidx := g.fidx + n })

/-- `rng.integers(lo, hi)`: one integer in `[lo, hi)` (for `hi > lo`). -/
def Rng.intIn (g : Rng) (lo hi : Nat) : Nat × Rng :=
  (lo + g.ints g.iidx % (hi - lo), { g with iidx := g.iidx + 1 })

/-- `rng.choice(n, k, replace=False)` on the pool `pool`, drawing `k`
elements without replacement: each round picks a position in the
remaining pool, keeps the element there and removes it from the pool. -/
def choiceAux (g : Rng) (pool : List Nat) : Nat → List Nat × Rng
  | 0 => ([], g)
  | k + 1 =>
    let d := g.intIn 0 pool.length
    let rest := choiceAux d.2 (pool.eraseIdx d.1) k
    (pool.getD d.1 0 :: rest.1, rest.2)

/-- `rng.choice(n, k, replace=False)`: `k` distinct indices from `[0, n)`. -/
def Rng.choiceNoReplace (g : Rng) (n k : Nat) : List Nat × Rng :=
  choiceAux g (List.range n) k

/-- The GA parameters of `q1_ai_lab_test.py` (`POP_SIZE`, `GENE_LENGTH`,
`MAX_GEN`, `ELITE`, `TOUR_K`, `PC`, `PM`), kept abstract so theorems can
quantify over configurations. -/
structure Config where
  N : Nat
  L : Nat
  G : Nat
  E : Nat
  K : Nat
  pc : ℚ
  pm : ℚ
deriving DecidableEq

/-- `fitness(pop) = np.sum(pop, axis=1)`: per-genome sum of bits. -/
def fitness (pop : List Genome) : List Nat :=
  pop.map (fun gnm => gnm.sum)

/-- `np.argmax` over the values `f x` for `x` drawn from `l`, returning the
first element of `l` attaining the maximum (strictly greater replaces). -/
def argmaxGo (f : Nat → Nat) (cur : Nat) : List Nat → Nat
  | [] => cur
  | y :: ys => if f cur < f y then argmaxGo f y ys else argmaxGo f cur ys

/-- First element of `l` whose `f`-value is maximal (`np.argmax` composed
with indexing by the candidate list). -/
def argmaxFirst (f : Nat → Nat) : List Nat → Nat
  | [] => 0
  | x :: xs => argmaxGo f x xs

/-- `tournament_selection(pop, fit)`: draw `K` distinct indices from
`[0, len(pop))`, return the genome at the drawn index whose fitness is
maximal (first such in draw order, as `np.argmax` does). -/
def tournament_selection (cfg : Config) (pop : List Genome) (fit : List Nat)
    (g : Rng) : Genome × Rng :=
  let draw := g.choiceNoReplace pop.length cfg.K
  (pop.getD (argmaxFirst (fun i => fit.getD i 0) draw.1) [], draw.2)

/-- `crossover(p1, p2)`: with probability `pc`, two cut points are drawn
from `{1, …, L-1}` (independently, then sorted) and the middle segments
are exchanged; otherwise the parents are returned as the children. -/
def crossover (cfg : Config) (p1 p2 : Genome) (g : Rng) :
    (Genome × Genome) × Rng :=
  let r := g.randFloat
  if r.1 < cfg.pc then
    let a := r.2.intIn 1 cfg.L
    let b := a.2.intIn 1 cfg.L
    let lo := min a.1 b.1
    let hi := max a.1 b.1
    ((p1.take lo ++ (p2.drop lo).take (hi - lo) ++ p1.drop hi,
      p2.take lo ++ (p1.drop lo).take (hi - lo) ++ p2.drop hi), b.2)
  else
    ((p1, p2), r.2)

/-- `mutation(child)`: draw `L` floats; flip (xor with 1) each bit whose
float is below `pm`. -/
def mutation (cfg : Config) (child : Genome) (g : Rng) : Genome × Rng :=
  let rs := g.randVec cfg.L
  (List.zipWith (fun r b => if r < cfg.pm then b ^^^ 1 else b) rs.1 child,
   rs.2)

/-- Stable insertion of index `i` into an index list sorted ascending by
fitness: `i` is placed before the first index of fitness `≥` its own. -/
def insIdx (fit : List Nat) (i : Nat) : List Nat → List Nat
  | [] => [i]
  | j :: js =>
    if fit.getD i 0 ≤ fit.getD j 0 then i :: j :: js else j :: insIdx fit i js

/-- `np.argsort(fit)` modelled as an ascending insertion sort of the
index range by fitness value.  numpy's default `argsort` (quicksort /
introsort) leaves the order among equal fitness values unspecified;
this model fixes one concrete tie order, and the claim theorems below
extract from it only properties shared by every correct ascending
sort: sortedness by fitness value and being a permutation of the index
range. -/
def argsort (fit : List Nat) : List Nat :=
  (List.range fit.length).foldr (insIdx fit) []

/-- The Python slice `a[-E:]` on a list (for `E = 0` it is the whole
list, otherwise the last `E` elements). -/
def lastSlice (l : List Nat) (E : Nat) : List Nat :=
  if E = 0 then l else l.drop (l.length - E)

/-- `elite_idx = np.argsort(fit)[-ELITE:]`. -/
def eliteIdx (fit : List Nat) (E : Nat) : List Nat :=
  lastSlice (argsort fit) E

/-- `elites = population[elite_idx]`. -/
def elitesOf (pop : List Genome) (fit : List Nat) (E : Nat) : List Genome :=
  (eliteIdx fit E).map (fun i => pop.getD i [])

/-- The offspring loop of `run_ga`: produce `need` children.  Each round
selects two parents by tournament, crosses them, and appends the mutated
first child and—if another slot remains—the mutated second child. -/
def makeChildren (cfg : Config) (pop : List Genome) (fit : List Nat) :
    Nat → Rng → List Genome × Rng
  | 0, g => ([], g)
  | 1, g =>
    let pa := tournament_selection cfg pop fit g
    let pb := tournament_selection cfg pop fit pa.2
    let cs := crossover cfg pa.1 pb.1 pb.2
    let m1 := mutation cfg cs.1.1 cs.2
    ([m1.1], m1.2)
  | n + 2, g =>
    let pa := tournament_selection cfg pop fit g
    let pb := tournament_selection cfg pop fit pa.2
    let cs := crossover cfg pa.1 pb.1 pb.2
    let m1 := mutation cfg cs.1.1 cs.2
    let m2 := mutation cfg cs.1.2 m1.2
    let rest := makeChildren cfg pop fit n m2.2
    (m1.1 :: m2.1 :: rest.1, rest.2)

/-- One generation of `run_ga` after the history record: elites are taken
from the current population, `N - E` children are bred, and the new
population is the children followed by the elites
(`np.vstack([new_population, elites])`). -/
def gaStep (cfg : Config) (pop : List Genome) (g : Rng) :
    List Genome × Rng :=
  let fit := fitness pop
  let ch := makeChildren cfg pop fit (cfg.N - cfg.E) g
  (ch.1 ++ elitesOf pop fit cfg.E, ch.2)

/-- `fit.max()` (0 on an empty list; populations are nonempty). -/
def listMax (l : List Nat) : Nat := l.foldr max 0

/-- One row of the `history` dataframe. -/
structure GenRecord where
  generation : Nat
  best : Nat
  mean : ℚ
deriving DecidableEq

/-- The record appended for 0-based generation `gen`: generation number
`gen + 1`, best fitness and mean fitness of the current population. -/
def recordOf (gen : Nat) (fit : List Nat) : GenRecord :=
  ⟨gen + 1, listMax fit, (fit.sum : ℚ) / (fit.length : ℚ)⟩

/-- The main loop of `run_ga`: `n` remaining generations starting at
0-based generation `gen`.  Each iteration records the statistics of the
incoming population and then replaces it. -/
def runLoop (cfg : Config) : Nat → Nat → List Genome → Rng →
    List GenRecord × List Genome × Rng
  | 0, _, pop, g => ([], pop, g)
  | n + 1, gen, pop, g =>
    let rec1 := recordOf gen (fitness pop)
    let stp := gaStep cfg pop g
    let rest := runLoop cfg n (gen + 1) stp.1 stp.2
    (rec1 :: rest.1, rest.2)

/-- `init_population()`: an `N × L` matrix of bits drawn by
`rng.integers(0, 2, size=(N, L))`. -/
def init_population (cfg : Config) (g : Rng) : List Genome × Rng :=
  ((List.range cfg.N).map (fun i =>
      (List.range cfg.L).map (fun j => g.ints (g.iidx + i * cfg.L + j) % 2)),
   { g with iidx := g.iidx + cfg.N * cfg.L })

/-- The population at the start of 0-based generation `t` of a run that
begins with population `pop` and generator state `g`. -/
def genPops (cfg : Config) (pop : List Genome) (g : Rng) :
    Nat → List Genome × Rng
  | 0 => (pop, g)
  | t + 1 => gaStep cfg (genPops cfg pop g t).1 (genPops cfg pop g t).2

/-- `run_ga()`: initialise the population, run `G` generations, and
return the history, the best final genome (first `np.argmax` of the final
fitness) and its fitness. -/
def run_ga (cfg : Config) (g : Rng) : List GenRecord × Genome × Nat :=
  let ip := init_population cfg g
  let res := runLoop cfg cfg.G 0 ip.1 ip.2
  let ffit := fitness res.2.1
  let bi := argmaxFirst (fun i => ffit.getD i 0) (List.range res.2.1.length)
  (res.1, res.2.1.getD bi [], ffit.getD bi 0)

/-! ### Properties of the stable argsort -/

/-- Sort key of the stable ascending argsort: strictly smaller fitness, or
equal fitness and smaller index. -/
def sKey (fit : List Nat) (i j : Nat) : Prop :=
  fit.getD i 0 < fit.getD j 0 ∨ (fit.getD i 0 = fit.getD j 0 ∧ i < j)

theorem sKey_le {fit : List Nat} {i j : Nat} (h : sKey fit i j) :
    fit.getD i 0 ≤ fit.getD j 0 := by
  rcases h with h | ⟨h, _⟩ <;> omega

theorem insIdx_length (fit : List Nat) (i : Nat) (l : List Nat) :
    (insIdx fit i l).length = l.length + 1 := by
  induction l with
  | nil => rfl
  | cons j js ih =>
    rw [insIdx]
    by_cases h : fit.getD i 0 ≤ fit.getD j 0
    · rw [if_pos h]
      simp
    · rw [if_neg h]
      simp [ih]

theorem mem_insIdx {fit : List Nat} {i x : Nat} {l : List Nat} :
    x ∈ insIdx fit i l ↔ x = i ∨ x ∈ l := by
  induction l with
  | nil => simp [insIdx]
  | cons j js ih =>
    rw [insIdx]
    by_cases h : fit.getD i 0 ≤ fit.getD j 0
    · rw [if_pos h]
      simp [List.mem_cons]
    · rw [if_neg h]
      simp [List.mem_cons, ih]
      tauto

theorem insIdx_pairwise {fit : List Nat} {i : Nat} {l : List Nat}
    (hlt : ∀ j ∈ l, i < j) (hp : l.Pairwise (sKey fit)) :
    (insIdx fit i l).Pairwise (sKey fit) := by
  induction l with
  | nil => simp [insIdx, sKey]
  | cons j js ih =>
    rcases List.pairwise_cons.1 hp with ⟨hj, hjs⟩
    by_cases h : fit.getD i 0 ≤ fit.getD j 0
    · rw [insIdx, if_pos h]
      refine List.pairwise_cons.2 ⟨?_, hp⟩
      intro x hx
      have hix : i < x := hlt x hx
      have hfx : fit.getD i 0 ≤ fit.getD x 0 := by
        rcases List.mem_cons.1 hx with rfl | hx
        · exact h
        · exact le_trans h (sKey_le (hj x hx))
      rcases lt_or_eq_of_le hfx with hlt' | heq
      · exact Or.inl hlt'
      · exact Or.inr ⟨heq, hix⟩
    · rw [insIdx, if_neg h]
      refine List.pairwise_cons.2 ⟨?_, ?_⟩
      · intro x hx
        rcases mem_insIdx.1 hx with rfl | hx
        · exact Or.inl (by omega)
        · exact hj x hx
      · exact ih (fun k hk => hlt k (List.mem_cons_of_mem _ hk)) hjs

theorem foldr_insIdx_mem {fit : List Nat} {l : List Nat} {x : Nat} :
    x ∈ l.foldr (insIdx fit) [] ↔ x ∈ l := by
  induction l with
  | nil => simp
  | cons a l ih => simp [mem_insIdx, ih]

theorem foldr_insIdx_pairwise {fit : List Nat} {l : List Nat}
    (hl : l.Pairwise (· < ·)) :
    (l.foldr (insIdx fit) []).Pairwise (sKey fit) := by
  induction l with
  | nil => simp
  | cons a l ih =>
    rcases List.pairwise_cons.1 hl with ⟨ha, hl1⟩
    exact insIdx_pairwise (fun j hj => ha j (foldr_insIdx_mem.1 hj)) (ih hl1)

theorem foldr_insIdx_length (fit : List Nat) (l : List Nat) :
    (l.foldr (insIdx fit) []).length = l.length := by
  induction l with
  | nil => rfl
  | cons a l ih => simp [insIdx_length, ih]

theorem argsort_length (fit : List Nat) :
    (argsort fit).length = fit.length := by
  simp [argsort, foldr_insIdx_length]

theorem mem_argsort {fit : List Nat} {x : Nat} :
    x ∈ argsort fit ↔ x < fit.length := by
  simp [argsort, foldr_insIdx_mem]

theorem argsort_pairwise (fit : List Nat) :
    (argsort fit).Pairwise (sKey fit) :=
  foldr_insIdx_pairwise (List.pairwise_lt_range _)

/-! ### Properties of the elite selection -/

theorem eliteIdx_eq {fit : List Nat} {E : Nat} (hE : E ≠ 0) :
    eliteIdx fit E = (argsort fit).drop ((argsort fit).length - E) := by
  simp [eliteIdx, lastSlice, hE]

theorem mem_eliteIdx_lt {fit : List Nat} {E i : Nat}
    (h : i ∈ eliteIdx fit E) : i < fit.length := by
  unfold eliteIdx lastSlice at h
  split at h
  · exact mem_argsort.1 h
  · exact mem_argsort.1 (List.mem_of_mem_drop h)

theorem eliteIdx_length {fit : List Nat} {E : Nat}
    (hE : 1 ≤ E) (hEN : E ≤ fit.length) :
    (eliteIdx fit E).length = E := by
  rw [eliteIdx_eq (by omega)]
  rw [List.length_drop, argsort_length]
  omega

theorem elite_ge {fit : List Nat} {E : Nat} (hE : 1 ≤ E) {i j : Nat}
    (hi : i ∈ eliteIdx fit E) (hj : j < fit.length)
    (hjn : j ∉ eliteIdx fit E) : fit.getD j 0 ≤ fit.getD i 0 := by
  have hsplit := List.take_append_drop ((argsort fit).length - E) (argsort fit)
  have hp := argsort_pairwise fit
  rw [← hsplit, List.pairwise_append] at hp
  have hi2 : i ∈ (argsort fit).drop ((argsort fit).length - E) := by
    rwa [eliteIdx_eq (by omega)] at hi
  have hjmem : j ∈ argsort fit := mem_argsort.2 hj
  rw [← hsplit, List.mem_append] at hjmem
  rcases hjmem with hjt | hjd
  · exact sKey_le (hp.2.2 j hjt i hi2)
  · exact absurd (by rwa [eliteIdx_eq (by omega)]) hjn

/-! ### Properties of `listMax` -/

theorem listMax_cons (a : Nat) (l : List Nat) :
    listMax (a :: l) = max a (listMax l) := rfl

theorem le_listMax {l : List Nat} {x : Nat} (h : x ∈ l) : x ≤ listMax l := by
  induction l with
  | nil => cases h
  | cons a l ih =>
    rcases List.mem_cons.1 h with rfl | h
    · exact le_max_left _ _
    · exact le_trans (ih h) (le_max_right _ _)

theorem listMax_mem {l : List Nat} (h : l ≠ []) : listMax l ∈ l := by
  induction l with
  | nil => exact absurd rfl h
  | cons a l ih =>
    rcases eq_or_ne l [] with rfl | hl
    · simp [listMax]
    · rw [listMax_cons]
      rcases le_total (listMax l) a with hle | hle
      · simp [max_eq_left hle]
      · rw [max_eq_right hle]
        exact List.mem_cons_of_mem _ (ih hl)

theorem listMax_getD {l : List Nat} (h : l ≠ []) :
    ∃ k, k < l.length ∧ l.getD k 0 = listMax l := by
  obtain ⟨k, hk, hval⟩ := List.mem_iff_getElem.1 (listMax_mem h)
  exact ⟨k, hk, by rw [List.getD_eq_getElem _ _ hk, hval]⟩

/-! ### Properties of `argmaxFirst` -/

theorem argmaxGo_mem (f : Nat → Nat) (cur : Nat) (xs : List Nat) :
    argmaxGo f cur xs ∈ cur :: xs := by
  induction xs generalizing cur with
  | nil => simp [argmaxGo]
  | cons y ys ih =>
    rw [argmaxGo]
    by_cases h : f cur < f y
    · rw [if_pos h]
      have := ih y
      simp only [List.mem_cons] at this ⊢
      tauto
    · rw [if_neg h]
      have := ih cur
      simp only [List.mem_cons] at this ⊢
      tauto

theorem argmaxGo_ge (f : Nat → Nat) (cur : Nat) (xs : List Nat) :
    ∀ x ∈ cur :: xs, f x ≤ f (argmaxGo f cur xs) := by
  induction xs generalizing cur with
  | nil =>
    intro x hx
    rcases List.mem_cons.1 hx with h1 | hx
    · rw [h1]
      simp [argmaxGo]
    · cases hx
  | cons y ys ih =>
    intro x hx
    rw [argmaxGo]
    by_cases h : f cur < f y
    · rw [if_pos h]
      rcases List.mem_cons.1 hx with h1 | hx
      · rw [h1]
        exact le_trans (le_of_lt h) (ih y y (List.mem_cons_self _ _))
      · exact ih y x hx
    · rw [if_neg h]
      rcases List.mem_cons.1 hx with h1 | hx
      · rw [h1]
        exact ih cur cur (List.mem_cons_self _ _)
      · rcases List.mem_cons.1 hx with h2 | hx
        · rw [h2]
          exact le_trans (le_of_not_lt h) (ih cur cur (List.mem_cons_self _ _))
        · exact ih cur x (List.mem_cons_of_mem _ hx)

theorem argmaxFirst_mem {f : Nat → Nat} {l : List Nat} (h : l ≠ []) :
    argmaxFirst f l ∈ l := by
  cases l with
  | nil => exact absurd rfl h
  | cons x xs => exact argmaxGo_mem f x xs

theorem argmaxFirst_ge {f : Nat → Nat} {l : List Nat} :
    ∀ x ∈ l, f x ≤ f (argmaxFirst f l) := by
  cases l with
  | nil => intro x hx; cases hx
  | cons x xs => exact argmaxGo_ge f x xs

/-! ### Properties of drawing without replacement -/

theorem choiceAux_length {g : Rng} {pool : List Nat} {k : Nat}
    (h : k ≤ pool.length) : (choiceAux g pool k).1.length = k := by
  induction k generalizing g pool with
  | zero => rfl
  | succ k ih =>
    have hpos : 0 < pool.length := by omega
    have hj : (g.intIn 0 pool.length).1 < pool.length := by
      simp only [Rng.intIn, Nat.zero_add]
      exact Nat.mod_lt _ hpos
    rw [choiceAux]
    simp only [List.length_cons]
    rw [ih (by rw [List.length_eraseIdx_of_lt hj]; omega)]

theorem choiceAux_mem {g : Rng} {pool : List Nat} {k : Nat}
    (h : k ≤ pool.length) : ∀ x ∈ (choiceAux g pool k).1, x ∈ pool := by
  induction k generalizing g pool with
  | zero => intro x hx; cases hx
  | succ k ih =>
    have hpos : 0 < pool.length := by omega
    have hj : (g.intIn 0 pool.length).1 < pool.length := by
      simp only [Rng.intIn, Nat.zero_add]
      exact Nat.mod_lt _ hpos
    intro x hx
    rw [choiceAux] at hx
    rcases List.mem_cons.1 hx with h1 | hx
    · rw [h1, List.getD_eq_getElem _ _ hj]
      exact List.getElem_mem hj
    · exact List.mem_of_mem_eraseIdx
        (ih (by rw [List.length_eraseIdx_of_lt hj]; omega) x hx)

theorem choiceAux_nodup {g : Rng} {pool : List Nat} {k : Nat}
    (h : k ≤ pool.length) (hnd : pool.Nodup) :
    (choiceAux g pool k).1.Nodup := by
  induction k generalizing g pool with
  | zero => simp [choiceAux]
  | succ k ih =>
    have hpos : 0 < pool.length := by omega
    have hj : (g.intIn 0 pool.length).1 < pool.length := by
      simp only [Rng.intIn, Nat.zero_add]
      exact Nat.mod_lt _ hpos
    rw [choiceAux]
    refine List.nodup_cons.2 ⟨?_, ?_⟩
    · intro hmem
      have hx := choiceAux_mem
        (by rw [List.length_eraseIdx_of_lt hj]; omega) _ hmem
      obtain ⟨i, hi, hne, hval⟩ := List.mem_eraseIdx_iff_getElem.1 hx
      rw [List.getD_eq_getElem _ _ hj] at hval
      exact hne (hnd.getElem_inj_iff.1 hval)
    · exact ih (by rw [List.length_eraseIdx_of_lt hj]; omega)
        ((List.eraseIdx_sublist pool _).nodup hnd)

theorem choice_length {g : Rng} {n k : Nat} (h : k ≤ n) :
    (Rng.choiceNoReplace g n k).1.length = k :=
  choiceAux_length (by simpa using h)

theorem choice_mem_lt {g : Rng} {n k : Nat} (h : k ≤ n) :
    ∀ x ∈ (Rng.choiceNoReplace g n k).1, x < n := by
  intro x hx
  exact List.mem_range.1 (choiceAux_mem (by simpa using h) x hx)

theorem choice_nodup {g : Rng} {n k : Nat} (h : k ≤ n) :
    (Rng.choiceNoReplace g n k).1.Nodup :=
  choiceAux_nodup (by simpa using h) (List.nodup_range _)

theorem choice_complete {g : Rng} {n : Nat} :
    ∀ j < n, j ∈ (Rng.choiceNoReplace g n n).1 := by
  intro j hj
  have hnd := choice_nodup (g := g) (n := n) (k := n) le_rfl
  have hlen := choice_length (g := g) (n := n) (k := n) le_rfl
  have hsub : (Rng.choiceNoReplace g n n).1.toFinset ⊆ Finset.range n := by
    intro x hx
    exact Finset.mem_range.2 (choice_mem_lt le_rfl x (List.mem_toFinset.1 hx))
  have hcard : (Finset.range n).card ≤ (Rng.choiceNoReplace g n n).1.toFinset.card := by
    rw [List.toFinset_card_of_nodup hnd, hlen, Finset.card_range]
  have := Finset.eq_of_subset_of_card_le hsub hcard
  have hjmem : j ∈ (Rng.choiceNoReplace g n n).1.toFinset := by
    rw [this]
    exact Finset.mem_range.2 hj
  exact List.mem_toFinset.1 hjmem

/-! ### Properties of fitness indexing and tournament selection -/

theorem fitness_length (pop : List Genome) :
    (fitness pop).length = pop.length := by
  simp [fitness]

theorem fitness_getD {pop : List Genome} {i : Nat} (h : i < pop.length) :
    (fitness pop).getD i 0 = (pop.getD i []).sum := by
  have h2 : i < (fitness pop).length := by rwa [fitness_length]
  rw [List.getD_eq_getElem _ _ h2, List.getD_eq_getElem _ _ h]
  simp [fitness]

theorem tournament_mem {cfg : Config} {pop : List Genome} {fit : List Nat}
    {g : Rng} (hK : 1 ≤ cfg.K) (hKN : cfg.K ≤ pop.length) :
    (tournament_selection cfg pop fit g).1 ∈ pop := by
  have hlen := choice_length (g := g) (n := pop.length) hKN
  have hne : (Rng.choiceNoReplace g pop.length cfg.K).1 ≠ [] := by
    intro hnil
    rw [hnil] at hlen
    simp at hlen
    omega
  have hmem := argmaxFirst_mem (f := fun i => fit.getD i 0) hne
  have hlt := choice_mem_lt hKN _ hmem
  rw [tournament_selection]
  rw [List.getD_eq_getElem _ _ hlt]
  exact List.getElem_mem hlt

theorem tournament_best {cfg : Config} {pop : List Genome} {fit : List Nat}
    {g : Rng} (hfit : fit = fitness pop) (hN : 1 ≤ pop.length)
    (hK : cfg.K = pop.length) :
    (tournament_selection cfg pop fit g).1.sum = listMax fit := by
  have hlen := choice_length (g := g) (n := pop.length) (le_of_eq hK)
  have hne : (Rng.choiceNoReplace g pop.length cfg.K).1 ≠ [] := by
    intro hnil
    rw [hnil] at hlen
    simp at hlen
    omega
  set cands := (Rng.choiceNoReplace g pop.length cfg.K).1 with hcands
  set idx := argmaxFirst (fun i => fit.getD i 0) cands with hidx
  have hidxmem : idx ∈ cands := argmaxFirst_mem hne
  have hidxlt : idx < pop.length := choice_mem_lt (le_of_eq hK) _ hidxmem
  have hfitlen : fit.length = pop.length := by rw [hfit, fitness_length]
  have hres : (tournament_selection cfg pop fit g).1.sum = fit.getD idx 0 := by
    rw [tournament_selection, ← hcands, ← hidx, ← fitness_getD hidxlt, hfit]
  rw [hres]
  apply le_antisymm
  · apply le_listMax
    rw [List.getD_eq_getElem _ _ (by omega)]
    exact List.getElem_mem (by omega)
  · obtain ⟨m, hm, hmval⟩ := listMax_getD (l := fit)
      (by intro hnil; rw [hnil] at hfitlen; simp at hfitlen; omega)
    have hmmem : m ∈ cands := by
      rw [hcands, hK]
      exact choice_complete m (by omega)
    calc listMax fit = fit.getD m 0 := hmval.symm
      _ ≤ fit.getD idx 0 := argmaxFirst_ge (f := fun i => fit.getD i 0) m hmmem

/-! ### Properties of crossover and mutation -/

theorem intIn_bounds {g : Rng} {L : Nat} (hL : 2 ≤ L) :
    1 ≤ (g.intIn 1 L).1 ∧ (g.intIn 1 L).1 ≤ L - 1 := by
  simp only [Rng.intIn]
  have : g.ints g.iidx % (L - 1) < L - 1 := Nat.mod_lt _ (by omega)
  omega

theorem crossover_length {cfg : Config} {p1 p2 : Genome} {g : Rng}
    (hL : 2 ≤ cfg.L) (h1 : p1.length = cfg.L) (h2 : p2.length = cfg.L) :
    (crossover cfg p1 p2 g).1.1.length = cfg.L ∧
    (crossover cfg p1 p2 g).1.2.length = cfg.L := by
  simp only [crossover]
  by_cases h : (g.randFloat).1 < cfg.pc
  · rw [if_pos h]
    obtain ⟨ha1, ha2⟩ := intIn_bounds (g := (g.randFloat).2) hL
    obtain ⟨hb1, hb2⟩ := intIn_bounds (g := ((g.randFloat).2.intIn 1 cfg.L).2) hL
    simp only [List.length_append, List.length_take, List.length_drop, h1, h2]
    constructor <;> omega
  · rw [if_neg h]
    exact ⟨h1, h2⟩

theorem mutation_length {cfg : Config} {child : Genome} {g : Rng}
    (h : child.length = cfg.L) :
    (mutation cfg child g).1.length = cfg.L := by
  simp [mutation, Rng.randVec, h]

/-! ### Properties of the offspring loop -/

theorem makeChildren_length (cfg : Config) (pop : List Genome)
    (fit : List Nat) : ∀ (n : Nat) (g : Rng),
    (makeChildren cfg pop fit n g).1.length = n := by
  intro n
  induction n using Nat.strong_induction_on with
  | _ n ih =>
    intro g
    match n with
    | 0 => rfl
    | 1 => rfl
    | n + 2 =>
      simp only [makeChildren, List.length_cons]
      rw [ih n (by omega)]

theorem makeChildren_genomes {cfg : Config} {pop : List Genome}
    {fit : List Nat} (hK : 1 ≤ cfg.K) (hKN : cfg.K ≤ pop.length)
    (hL : 2 ≤ cfg.L) (hall : ∀ x ∈ pop, x.length = cfg.L) :
    ∀ (n : Nat) (g : Rng),
    ∀ c ∈ (makeChildren cfg pop fit n g).1, c.length = cfg.L := by
  intro n
  induction n using Nat.strong_induction_on with
  | _ n ih =>
    intro g c hc
    have hpar1 : ∀ g1 : Rng, (tournament_selection cfg pop fit g1).1.length = cfg.L :=
      fun g1 => hall _ (tournament_mem hK hKN)
    match n with
    | 0 => cases hc
    | 1 =>
      simp only [makeChildren, List.mem_singleton] at hc
      rw [hc]
      exact mutation_length (crossover_length hL (hpar1 _) (hpar1 _)).1
    | n + 2 =>
      simp only [makeChildren, List.mem_cons] at hc
      rcases hc with h1 | h2 | hrest
      · rw [h1]
        exact mutation_length (crossover_length hL (hpar1 _) (hpar1 _)).1
      · rw [h2]
        exact mutation_length (crossover_length hL (hpar1 _) (hpar1 _)).2
      · exact ih n (by omega) _ c hrest

/-! ### Properties of a generation step -/

theorem elitesOf_length {pop : List Genome} {fit : List Nat} {E : Nat}
    (hE : 1 ≤ E) (hEN : E ≤ fit.length) :
    (elitesOf pop fit E).length = E := by
  simp [elitesOf, eliteIdx_length hE hEN]

theorem elitesOf_genomes {pop : List Genome} {fit : List Nat} {E L : Nat}
    (hfl : fit.length = pop.length) (hall : ∀ x ∈ pop, x.length = L) :
    ∀ x ∈ elitesOf pop fit E, x.length = L := by
  intro x hx
  simp only [elitesOf, List.mem_map] at hx
  obtain ⟨i, hi, rfl⟩ := hx
  have hilt : i < pop.length := by
    rw [← hfl]
    exact mem_eliteIdx_lt hi
  rw [List.getD_eq_getElem _ _ hilt]
  exact hall _ (List.getElem_mem hilt)

theorem gaStep_length {cfg : Config} {pop : List Genome} {g : Rng}
    (hE : 1 ≤ cfg.E) (hEN : cfg.E ≤ cfg.N) (hlen : pop.length = cfg.N) :
    (gaStep cfg pop g).1.length = cfg.N := by
  simp only [gaStep, List.length_append]
  rw [makeChildren_length,
    elitesOf_length hE (by rw [fitness_length, hlen]; exact hEN)]
  omega

theorem gaStep_genomes {cfg : Config} {pop : List Genome} {g : Rng}
    (hK : 1 ≤ cfg.K) (hKN : cfg.K ≤ cfg.N) (hL : 2 ≤ cfg.L)
    (hlen : pop.length = cfg.N) (hall : ∀ x ∈ pop, x.length = cfg.L) :
    ∀ x ∈ (gaStep cfg pop g).1, x.length = cfg.L := by
  intro x hx
  simp only [gaStep, List.mem_append] at hx
  rcases hx with hx | hx
  · exact makeChildren_genomes hK (by omega) hL hall _ _ x hx
  · exact elitesOf_genomes (fitness_length pop) hall x hx

theorem gaStep_drop {cfg : Config} {pop : List Genome} {g : Rng} :
    (gaStep cfg pop g).1.drop (cfg.N - cfg.E) =
      elitesOf pop (fitness pop) cfg.E := by
  simp only [gaStep]
  exact List.drop_left'
    (makeChildren_length cfg pop (fitness pop) (cfg.N - cfg.E) g)

theorem maxFit_step {cfg : Config} {pop : List Genome} {g : Rng}
    (hE : 1 ≤ cfg.E) (hEN : cfg.E ≤ cfg.N) (hlen : pop.length = cfg.N)
    (hN : 1 ≤ cfg.N) :
    listMax (fitness pop) ≤ listMax (fitness (gaStep cfg pop g).1) := by
  have hfl : (fitness pop).length = pop.length := fitness_length pop
  have hfne : fitness pop ≠ [] := by
    intro h
    rw [h] at hfl
    simp at hfl
    omega
  obtain ⟨m, hm, hmval⟩ := listMax_getD hfne
  have helen : (eliteIdx (fitness pop) cfg.E).length = cfg.E :=
    eliteIdx_length hE (by omega)
  have hene : eliteIdx (fitness pop) cfg.E ≠ [] := by
    intro h
    rw [h] at helen
    simp at helen
    omega
  have key : ∃ i ∈ eliteIdx (fitness pop) cfg.E,
      listMax (fitness pop) ≤ (fitness pop).getD i 0 := by
    by_cases hmem : m ∈ eliteIdx (fitness pop) cfg.E
    · exact ⟨m, hmem, le_of_eq hmval.symm⟩
    · obtain ⟨i, hi⟩ := List.exists_mem_of_ne_nil _ hene
      refine ⟨i, hi, ?_⟩
      rw [← hmval]
      exact elite_ge hE hi hm hmem
  obtain ⟨i, hi, hgei⟩ := key
  have hilt : i < pop.length := by
    rw [← hfl]
    exact mem_eliteIdx_lt hi
  have hgen : pop.getD i [] ∈ (gaStep cfg pop g).1 := by
    simp only [gaStep, List.mem_append]
    right
    simp only [elitesOf, List.mem_map]
    exact ⟨i, hi, rfl⟩
  have hsum : (pop.getD i []).sum ∈ fitness (gaStep cfg pop g).1 := by
    simp only [fitness, List.mem_map]
    exact ⟨_, hgen, rfl⟩
  calc listMax (fitness pop) ≤ (fitness pop).getD i 0 := hgei
    _ = (pop.getD i []).sum := fitness_getD hilt
    _ ≤ listMax (fitness (gaStep cfg pop g).1) := le_listMax hsum

/-! ### Properties of the iterated populations and the run loop -/

theorem genPops_shift (cfg : Config) (pop : List Genome) (g : Rng) :
    ∀ t, genPops cfg pop g (t + 1) =
      genPops cfg (gaStep cfg pop g).1 (gaStep cfg pop g).2 t := by
  intro t
  induction t with
  | zero => rfl
  | succ t ih =>
    show gaStep cfg (genPops cfg pop g (t + 1)).1 (genPops cfg pop g (t + 1)).2 =
      genPops cfg (gaStep cfg pop g).1 (gaStep cfg pop g).2 (t + 1)
    rw [ih]
    rfl

theorem genPops_invariant {cfg : Config} {pop : List Genome} {g : Rng}
    (hE : 1 ≤ cfg.E) (hEN : cfg.E ≤ cfg.N) (hK : 1 ≤ cfg.K)
    (hKN : cfg.K ≤ cfg.N) (hL : 2 ≤ cfg.L)
    (hlen : pop.length = cfg.N) (hall : ∀ x ∈ pop, x.length = cfg.L) :
    ∀ t, (genPops cfg pop g t).1.length = cfg.N ∧
      ∀ x ∈ (genPops cfg pop g t).1, x.length = cfg.L := by
  intro t
  induction t with
  | zero => exact ⟨hlen, hall⟩
  | succ t ih =>
    refine ⟨gaStep_length hE hEN ih.1, gaStep_genomes hK hKN hL ih.1 ih.2⟩

theorem runLoop_length (cfg : Config) :
    ∀ (n gen : Nat) (pop : List Genome) (g : Rng),
    (runLoop cfg n gen pop g).1.length = n := by
  intro n
  induction n with
  | zero => intro gen pop g; rfl
  | succ n ih =>
    intro gen pop g
    simp only [runLoop, List.length_cons]
    rw [ih]

theorem runLoop_getD (cfg : Config) :
    ∀ (n gen : Nat) (pop : List Genome) (g : Rng) (i : Nat), i < n →
    (runLoop cfg n gen pop g).1.getD i ⟨0, 0, 0⟩ =
      recordOf (gen + i) (fitness (genPops cfg pop g i).1) := by
  intro n
  induction n with
  | zero => intro gen pop g i hi; omega
  | succ n ih =>
    intro gen pop g i hi
    match i with
    | 0 => simp [runLoop, genPops]
    | i + 1 =>
      simp only [runLoop, List.getD_cons_succ]
      rw [ih (gen + 1) (gaStep cfg pop g).1 (gaStep cfg pop g).2 i (by omega)]
      rw [← genPops_shift]
      have harith : gen + 1 + i = gen + (i + 1) := by omega
      rw [harith]

theorem init_population_length (cfg : Config) (g : Rng) :
    (init_population cfg g).1.length = cfg.N := by
  simp [init_population]

theorem init_population_genomes (cfg : Config) (g : Rng) :
    ∀ x ∈ (init_population cfg g).1, x.length = cfg.L := by
  intro x hx
  simp only [init_population, List.mem_map] at hx
  obtain ⟨i, _, rfl⟩ := hx
  simp

theorem genPops_length {cfg : Config} {pop : List Genome} {g : Rng}
    (hE : 1 ≤ cfg.E) (hEN : cfg.E ≤ cfg.N) (hlen : pop.length = cfg.N) :
    ∀ t, (genPops cfg pop g t).1.length = cfg.N := by
  intro t
  induction t with
  | zero => exact hlen
  | succ t ih => exact gaStep_length hE hEN ih

/-! ### Bit-flip helpers for mutation -/

theorem zipWith_no_flip {pm : ℚ} (rs : List ℚ) (c : List Nat)
    (hlen : c.length ≤ rs.length) (hno : ∀ r ∈ rs, ¬ r < pm) :
    List.zipWith (fun r b => if r < pm then b ^^^ 1 else b) rs c = c := by
  induction rs generalizing c with
  | nil =>
    have h0 : c.length = 0 := by simpa using hlen
    rw [List.length_eq_zero.1 h0]
    rfl
  | cons r rs ih =>
    cases c with
    | nil => rfl
    | cons b bs =>
      simp only [List.zipWith_cons_cons]
      rw [if_neg (hno r (List.mem_cons_self _ _))]
      rw [ih bs (by simpa using Nat.le_of_succ_le_succ (by simpa using hlen))
        (fun x hx => hno x (List.mem_cons_of_mem _ hx))]

theorem zipWith_all_flip {pm : ℚ} (rs : List ℚ) (c : List Nat)
    (hlen : c.length ≤ rs.length) (hall : ∀ r ∈ rs, r < pm) :
    List.zipWith (fun r b => if r < pm then b ^^^ 1 else b) rs c =
      c.map (fun b => b ^^^ 1) := by
  induction rs generalizing c with
  | nil =>
    have h0 : c.length = 0 := by simpa using hlen
    rw [List.length_eq_zero.1 h0]
    rfl
  | cons r rs ih =>
    cases c with
    | nil => rfl
    | cons b bs =>
      simp only [List.zipWith_cons_cons, List.map_cons]
      rw [if_pos (hall r (List.mem_cons_self _ _))]
      rw [ih bs (by simpa using Nat.le_of_succ_le_succ (by simpa using hlen))
        (fun x hx => hall x (List.mem_cons_of_mem _ hx))]

/-! ### Concrete values used by witnesses and counterexamples -/

/-- A concrete generator state: both streams constantly zero. -/
def gZero : Rng := ⟨fun _ => 0, fun _ => 0, 0, 0⟩

/-- A small concrete configuration: `N = 4`, `L = 3`, `G = 2`, `E = 2`,
`K = 2`, `pc = 1`, `pm = 0`. -/
def cfgW : Config := ⟨4, 3, 2, 2, 2, 1, 0⟩

/-- A small concrete population matching `cfgW`. -/
def popW : List Genome := [[1, 0, 1], [0, 0, 0], [1, 1, 1], [0, 1, 0]]

/-! ### Claim theorems for `q1_ai_lab_test.py` -/

/-- C1: two executions of `run_ga` whose generators were created
identically (same value streams and cursors, as produced by seeding with
the same seed) yield the same history, the same best genome and the same
best fitness. -/
theorem run_ga_deterministic (cfg : Config) (g1 g2 : Rng)
    (hf : g1.floats = g2.floats) (hi : g1.ints = g2.ints)
    (hfi : g1.fidx = g2.fidx) (hii : g1.iidx = g2.iidx) :
    (run_ga cfg g1).1 = (run_ga cfg g2).1 ∧
    (run_ga cfg g1).2.1 = (run_ga cfg g2).2.1 ∧
    (run_ga cfg g1).2.2 = (run_ga cfg g2).2.2 := by
  have hg : g1 = g2 := by
    cases g1
    cases g2
    simp_all
  rw [hg]
  exact ⟨rfl, rfl, rfl⟩

theorem run_ga_deterministic_witness :
    ((⟨fun _ => 0, fun n => n, 0, 0⟩ : Rng).floats =
        (⟨fun _ => 0, fun n => n, 0, 0⟩ : Rng).floats) ∧
    ((run_ga cfgW ⟨fun _ => 0, fun n => n, 0, 0⟩).1 =
        (run_ga cfgW ⟨fun _ => 0, fun n => n, 0, 0⟩).1 ∧
      (run_ga cfgW ⟨fun _ => 0, fun n => n, 0, 0⟩).2.1 =
        (run_ga cfgW ⟨fun _ => 0, fun n => n, 0, 0⟩).2.1 ∧
      (run_ga cfgW ⟨fun _ => 0, fun n => n, 0, 0⟩).2.2 =
        (run_ga cfgW ⟨fun _ => 0, fun n => n, 0, 0⟩).2.2) :=
  ⟨rfl, run_ga_deterministic cfgW _ _ rfl rfl rfl rfl⟩

/-- C2 counterexample: with `pc = 1` and `L = 4`, on the all-zero and
all-one parents and a generator whose integer stream is constantly zero,
both cut draws are `1`, so the children cannot be written as a two-point
split with distinct interior cut points `p1 < p2`. -/
theorem crossover_distinct_cuts_false :
    ¬ ∃ p1, p1 < 4 ∧ ∃ p2, p2 < 4 ∧ 1 ≤ p1 ∧ p1 < p2 ∧ p2 ≤ 3 ∧
      (crossover cfgW [0, 0, 0, 0] [1, 1, 1, 1] gZero).1.1 =
        List.take p1 [0, 0, 0, 0] ++
          (List.drop p1 [1, 1, 1, 1]).take (p2 - p1) ++
          List.drop p2 [0, 0, 0, 0] ∧
      (crossover cfgW [0, 0, 0, 0] [1, 1, 1, 1] gZero).1.2 =
        List.take p1 [1, 1, 1, 1] ++
          (List.drop p1 [0, 0, 0, 0]).take (p2 - p1) ++
          List.drop p2 [1, 1, 1, 1] := by
  have hcross : (crossover cfgW [0, 0, 0, 0] [1, 1, 1, 1] gZero).1 =
      ([0, 0, 0, 0], [1, 1, 1, 1]) := by
    simp [crossover, cfgW, gZero, Rng.randFloat, Rng.intIn, Int.fract]
  rw [hcross]
  decide

/-- C2 (amended): with `pc = 0` the children equal the parents; with
`pc = 1` the crossover always performs a two-point split whose cut
points `lo ≤ hi` (possibly equal) both lie in `{1, …, L-1}`, the
children being the stated segment exchanges. -/
theorem crossover_extremes (cfg : Config) (p1 p2 : Genome) (g : Rng)
    (hL : 2 ≤ cfg.L) :
    (cfg.pc = 0 → (crossover cfg p1 p2 g).1 = (p1, p2)) ∧
    (cfg.pc = 1 → ∃ lo hi, 1 ≤ lo ∧ lo ≤ hi ∧ hi ≤ cfg.L - 1 ∧
      (crossover cfg p1 p2 g).1.1 =
        p1.take lo ++ (p2.drop lo).take (hi - lo) ++ p1.drop hi ∧
      (crossover cfg p1 p2 g).1.2 =
        p2.take lo ++ (p1.drop lo).take (hi - lo) ++ p2.drop hi) := by
  constructor
  · intro h0
    simp only [crossover]
    rw [if_neg (by rw [h0]; exact not_lt.2 (Int.fract_nonneg _))]
  · intro h1
    simp only [crossover]
    rw [if_pos (by rw [h1]; exact Int.fract_lt_one _)]
    obtain ⟨ha1, ha2⟩ := intIn_bounds (g := (g.randFloat).2) hL
    obtain ⟨hb1, hb2⟩ :=
      intIn_bounds (g := ((g.randFloat).2.intIn 1 cfg.L).2) hL
    refine ⟨_, _, le_min ha1 hb1, min_le_max, max_le ha2 hb2, rfl, rfl⟩

theorem crossover_extremes_witness :
    2 ≤ cfgW.L ∧
    ((cfgW.pc = 0 → (crossover cfgW [0, 1] [1, 0] gZero).1 = ([0, 1], [1, 0])) ∧
     (cfgW.pc = 1 → ∃ lo hi, 1 ≤ lo ∧ lo ≤ hi ∧ hi ≤ cfgW.L - 1 ∧
       (crossover cfgW [0, 1] [1, 0] gZero).1.1 =
         List.take lo [0, 1] ++ (List.drop lo [1, 0]).take (hi - lo) ++
           List.drop hi [0, 1] ∧
       (crossover cfgW [0, 1] [1, 0] gZero).1.2 =
         List.take lo [1, 0] ++ (List.drop lo [0, 1]).take (hi - lo) ++
           List.drop hi [1, 0])) :=
  ⟨by decide, crossover_extremes cfgW [0, 1] [1, 0] gZero (by decide)⟩

/-- C4: with at least one elite, the best fitness recorded in the
history of `run_ga` is non-decreasing between consecutive
generations. -/
theorem best_fitness_monotone (cfg : Config) (g : Rng)
    (hE : 1 ≤ cfg.E) (hEN : cfg.E ≤ cfg.N) (hN : 1 ≤ cfg.N)
    (i : Nat) (hi : i + 1 < cfg.G) :
    ((run_ga cfg g).1.getD i ⟨0, 0, 0⟩).best ≤
    ((run_ga cfg g).1.getD (i + 1) ⟨0, 0, 0⟩).best := by
  simp only [run_ga]
  rw [runLoop_getD cfg cfg.G 0 _ _ i (by omega),
      runLoop_getD cfg cfg.G 0 _ _ (i + 1) (by omega)]
  show listMax (fitness _) ≤ listMax (fitness _)
  have hstep : genPops cfg (init_population cfg g).1
      (init_population cfg g).2 (i + 1) =
      gaStep cfg (genPops cfg (init_population cfg g).1
        (init_population cfg g).2 i).1
        (genPops cfg (init_population cfg g).1
          (init_population cfg g).2 i).2 := rfl
  rw [hstep]
  exact maxFit_step hE hEN
    (genPops_length hE hEN (init_population_length cfg g) i) hN

theorem best_fitness_monotone_witness :
    (1 ≤ cfgW.E ∧ cfgW.E ≤ cfgW.N ∧ 1 ≤ cfgW.N ∧ 0 + 1 < cfgW.G) ∧
    ((run_ga cfgW gZero).1.getD 0 ⟨0, 0, 0⟩).best ≤
      ((run_ga cfgW gZero).1.getD (0 + 1) ⟨0, 0, 0⟩).best :=
  ⟨⟨by decide, by decide, by decide, by decide⟩,
    best_fitness_monotone cfgW gZero (by decide) (by decide) (by decide) 0
      (by decide)⟩

/-- C5: in every run, the population of every generation (the initial
one and every replacement) has exactly `N` genomes, each of length
exactly `L`. -/
theorem population_invariant (cfg : Config) (g : Rng)
    (hE : 1 ≤ cfg.E) (hEN : cfg.E ≤ cfg.N) (hK : 1 ≤ cfg.K)
    (hKN : cfg.K ≤ cfg.N) (hL : 2 ≤ cfg.L) (t : Nat) :
    (genPops cfg (init_population cfg g).1
      (init_population cfg g).2 t).1.length = cfg.N ∧
    ∀ x ∈ (genPops cfg (init_population cfg g).1
      (init_population cfg g).2 t).1, x.length = cfg.L :=
  genPops_invariant hE hEN hK hKN hL (init_population_length cfg g)
    (init_population_genomes cfg g) t

theorem population_invariant_witness :
    (1 ≤ cfgW.E ∧ cfgW.E ≤ cfgW.N ∧ 1 ≤ cfgW.K ∧ cfgW.K ≤ cfgW.N ∧
      2 ≤ cfgW.L) ∧
    ((genPops cfgW (init_population cfgW gZero).1
        (init_population cfgW gZero).2 1).1.length = cfgW.N ∧
      ∀ x ∈ (genPops cfgW (init_population cfgW gZero).1
        (init_population cfgW gZero).2 1).1, x.length = cfgW.L) :=
  ⟨⟨by decide, by decide, by decide, by decide, by decide⟩,
    population_invariant cfgW gZero (by decide) (by decide) (by decide)
      (by decide) (by decide) 1⟩

/-- C6: the history of `run_ga` has length exactly `G`; entry `i` carries
generation number `i + 1`, and its best and mean fields are the maximum
and the mean fitness of the population entering generation `i`, recorded
before that population is replaced. -/
theorem history_records (cfg : Config) (g : Rng) (i : Nat)
    (hi : i < cfg.G) :
    (run_ga cfg g).1.length = cfg.G ∧
    ((run_ga cfg g).1.getD i ⟨0, 0, 0⟩).generation = i + 1 ∧
    ((run_ga cfg g).1.getD i ⟨0, 0, 0⟩).best =
      listMax (fitness (genPops cfg (init_population cfg g).1
        (init_population cfg g).2 i).1) ∧
    ((run_ga cfg g).1.getD i ⟨0, 0, 0⟩).mean =
      ((fitness (genPops cfg (init_population cfg g).1
          (init_population cfg g).2 i).1).sum : ℚ) /
        ((fitness (genPops cfg (init_population cfg g).1
          (init_population cfg g).2 i).1).length : ℚ) := by
  simp only [run_ga]
  rw [runLoop_getD cfg cfg.G 0 _ _ i hi]
  refine ⟨runLoop_length cfg cfg.G 0 _ _, ?_, rfl, rfl⟩
  show 0 + i + 1 = i + 1
  omega

theorem history_records_witness :
    0 < cfgW.G ∧
    ((run_ga cfgW gZero).1.length = cfgW.G ∧
    ((run_ga cfgW gZero).1.getD 0 ⟨0, 0, 0⟩).generation = 0 + 1 ∧
    ((run_ga cfgW gZero).1.getD 0 ⟨0, 0, 0⟩).best =
      listMax (fitness (genPops cfgW (init_population cfgW gZero).1
        (init_population cfgW gZero).2 0).1) ∧
    ((run_ga cfgW gZero).1.getD 0 ⟨0, 0, 0⟩).mean =
      ((fitness (genPops cfgW (init_population cfgW gZero).1
          (init_population cfgW gZero).2 0).1).sum : ℚ) /
        ((fitness (genPops cfgW (init_population cfgW gZero).1
          (init_population cfgW gZero).2 0).1).length : ℚ)) :=
  ⟨by decide, history_records cfgW gZero 0 (by decide)⟩

/-- C7: tournament selection draws `K` distinct indices from `[0, N)`
and returns the genome at a drawn index of maximal fitness among the
draw; with `K = N` the returned genome's fitness is the maximum fitness
of the whole population. -/
theorem tournament_spec (cfg : Config) (pop : List Genome)
    (fit : List Nat) (g : Rng) (hfit : fit = fitness pop)
    (hN : 1 ≤ pop.length) (hK : 1 ≤ cfg.K) (hKN : cfg.K ≤ pop.length) :
    (Rng.choiceNoReplace g pop.length cfg.K).1.length = cfg.K ∧
    (Rng.choiceNoReplace g pop.length cfg.K).1.Nodup ∧
    (∀ c ∈ (Rng.choiceNoReplace g pop.length cfg.K).1, c < pop.length) ∧
    (∃ c ∈ (Rng.choiceNoReplace g pop.length cfg.K).1,
      (tournament_selection cfg pop fit g).1 = pop.getD c [] ∧
      ∀ d ∈ (Rng.choiceNoReplace g pop.length cfg.K).1,
        fit.getD d 0 ≤ fit.getD c 0) ∧
    (cfg.K = pop.length →
      (tournament_selection cfg pop fit g).1.sum = listMax fit) := by
  have hlen := choice_length (g := g) (n := pop.length) hKN
  have hne : (Rng.choiceNoReplace g pop.length cfg.K).1 ≠ [] := by
    intro hnil
    rw [hnil] at hlen
    simp at hlen
    omega
  refine ⟨hlen, choice_nodup hKN, choice_mem_lt hKN, ?_,
    fun hKeq => tournament_best hfit hN hKeq⟩
  exact ⟨argmaxFirst (fun i => fit.getD i 0)
      (Rng.choiceNoReplace g pop.length cfg.K).1,
    argmaxFirst_mem hne, rfl,
    fun d hd => argmaxFirst_ge (f := fun i => fit.getD i 0) d hd⟩

theorem tournament_spec_witness :
    (fitness popW = fitness popW ∧ 1 ≤ popW.length ∧ 1 ≤ cfgW.K ∧
      cfgW.K ≤ popW.length) ∧
    ((Rng.choiceNoReplace gZero popW.length cfgW.K).1.length = cfgW.K ∧
    (Rng.choiceNoReplace gZero popW.length cfgW.K).1.Nodup ∧
    (∀ c ∈ (Rng.choiceNoReplace gZero popW.length cfgW.K).1,
      c < popW.length) ∧
    (∃ c ∈ (Rng.choiceNoReplace gZero popW.length cfgW.K).1,
      (tournament_selection cfgW popW (fitness popW) gZero).1 =
        popW.getD c [] ∧
      ∀ d ∈ (Rng.choiceNoReplace gZero popW.length cfgW.K).1,
        (fitness popW).getD d 0 ≤ (fitness popW).getD c 0) ∧
    (cfgW.K = popW.length →
      (tournament_selection cfgW popW (fitness popW) gZero).1.sum =
        listMax (fitness popW))) :=
  ⟨⟨rfl, by decide, by decide, by decide⟩,
    tournament_spec cfgW popW (fitness popW) gZero rfl (by decide)
      (by decide) (by decide)⟩

/-- C8: on a genome of length `L`, mutation with `pm = 0` returns the
genome unchanged, and mutation with `pm = 1` flips every bit. -/
theorem mutation_pm_extremes (cfg : Config) (child : Genome) (g : Rng)
    (hlen : child.length = cfg.L) :
    (cfg.pm = 0 → (mutation cfg child g).1 = child) ∧
    (cfg.pm = 1 → (mutation cfg child g).1 =
      child.map (fun b => b ^^^ 1)) := by
  have hrs : (g.randVec cfg.L).1.length = cfg.L := by
    simp [Rng.randVec]
  constructor
  · intro h0
    simp only [mutation]
    apply zipWith_no_flip _ _ (by omega)
    intro r hr
    simp only [Rng.randVec, List.mem_map] at hr
    obtain ⟨k, _, hk⟩ := hr
    rw [← hk, h0]
    exact not_lt.2 (Int.fract_nonneg _)
  · intro h1
    simp only [mutation]
    apply zipWith_all_flip _ _ (by omega)
    intro r hr
    simp only [Rng.randVec, List.mem_map] at hr
    obtain ⟨k, _, hk⟩ := hr
    rw [← hk, h1]
    exact Int.fract_lt_one _

theorem mutation_pm_extremes_witness :
    ([1, 0, 1] : Genome).length = cfgW.L ∧
    ((cfgW.pm = 0 → (mutation cfgW [1, 0, 1] gZero).1 = [1, 0, 1]) ∧
     (cfgW.pm = 1 → (mutation cfgW [1, 0, 1] gZero).1 =
       List.map (fun b => b ^^^ 1) [1, 0, 1])) :=
  ⟨by decide, mutation_pm_extremes cfgW [1, 0, 1] gZero (by decide)⟩

end GA

namespace RuleEngine

/-- Python values occurring in facts, conditions and rule actions:
integers, strings, booleans and `None`. -/
inductive Value where
  | int : Int → Value
  | str : String → Value
  | bool : Bool → Value
  | vnone : Value
deriving DecidableEq

/-- Python treats `bool` as a numeric subtype of `int` (`True == 1`), so
comparisons first try to view both operands as integers. -/
def toNum : Value → Option Int
  | .int i => some i
  | .bool b => some (if b then 1 else 0)
  | _ => Option.none

/-- Python `==` on the embedded values: numeric equality when both sides
are numbers, structural equality on strings and `None`, and `False`
across incompatible types (never an error). -/
def pyEq (a b : Value) : Bool :=
  match toNum a, toNum b with
  | some x, some y => x == y
  | _, _ =>
    match a, b with
    | .str s, .str t => s == t
    | .vnone, .vnone => true
    | _, _ => false

/-- Python ordering comparison: defined between numbers and between
strings; ordering any other combination raises `TypeError`, modelled as
`Except.error`. -/
def pyCmp (a b : Value) : Except Unit Ordering :=
  match toNum a, toNum b with
  | some x, some y => .ok (compare x y)
  | _, _ =>
    match a, b with
    | .str s, .str t => .ok (compare s t)
    | _, _ => .error ()

/-- The keys of the `OPS` table. -/
def OPS_KEYS : List String := ["==", "!=", ">", ">=", "<", "<="]

/-- Application of an `OPS` entry to two values. -/
def applyOp (op : String) (a b : Value) : Except Unit Bool :=
  if op = "==" then .ok (pyEq a b)
  else if op = "!=" then .ok (!pyEq a b)
  else if op = ">" then (pyCmp a b).map (fun o => o == .gt)
  else if op = ">=" then (pyCmp a b).map (fun o => !(o == .lt))
  else if op = "<" then (pyCmp a b).map (fun o => o == .lt)
  else if op = "<=" then (pyCmp a b).map (fun o => !(o == .gt))
  else .ok false

/-- A rule condition `[field, op, value]`. -/
structure Cond where
  field : String
  op : String
  value : Value
deriving DecidableEq

/-- A rule action. -/
structure Action where
  mode : String
  fan_speed : String
  setpoint : Option Int
  reason : String
deriving DecidableEq

/-- A rule of the knowledge base. -/
structure Rule where
  name : String
  priority : Int
  conditions : List Cond
  action : Action
deriving DecidableEq

/-- A fact set: an association list modelling the Python facts dict. -/
abbrev Facts := List (String × Value)

/-- `evaluate_condition(facts, cond)`: `False` when the field is absent
from the facts or the operator is not in `OPS`; otherwise the operator
applied to the fact value and the condition value. -/
def evaluate_condition (facts : Facts) (c : Cond) : Except Unit Bool :=
  match facts.lookup c.field with
  | Option.none => .ok false
  | some v => if c.op ∈ OPS_KEYS then applyOp c.op v c.value else .ok false

/-- `all(evaluate_condition(facts, c) for c in conds)`: short-circuits on
the first false condition, propagates the first error reached. -/
def allConds (facts : Facts) : List Cond → Except Unit Bool
  | [] => .ok true
  | c :: cs =>
    match evaluate_condition facts c with
    | .error e => .error e
    | .ok true => allConds facts cs
    | .ok false => .ok false

/-- `rule_matches(facts, rule)`. -/
def rule_matches (facts : Facts) (r : Rule) : Except Unit Bool :=
  allConds facts r.conditions

/-- The list comprehension `[r for r in rules if rule_matches(facts, r)]`,
propagating an error raised while testing any rule. -/
def filterMatches (facts : Facts) : List Rule → Except Unit (List Rule)
  | [] => .ok []
  | r :: rs =>
    match rule_matches facts r with
    | .error e => .error e
    | .ok b =>
      match filterMatches facts rs with
      | .error e => .error e
      | .ok rest => .ok (if b then r :: rest else rest)

/-- The fixed default action returned when no rule matches. -/
def defaultAction : Action :=
  ⟨"OFF", "AUTO", Option.none, "No rule satisfied"⟩

/-- Stable insertion for descending priority: `r` is placed before the
first rule whose priority does not exceed its own, so that
`matched_rules.sort(key=priority, reverse=True)`—a stable sort—is
recovered by folding from the right. -/
def insertDesc (r : Rule) : List Rule → List Rule
  | [] => [r]
  | x :: xs =>
    if x.priority ≤ r.priority then r :: x :: xs else x :: insertDesc r xs

/-- `matched_rules.sort(key=lambda r: r["priority"], reverse=True)`:
stable descending sort by priority. -/
def sortDesc (l : List Rule) : List Rule := l.foldr insertDesc []

/-- Placeholder rule used only as the (never reached) `headD` default. -/
def dummyRule : Rule := ⟨"", 0, [], defaultAction⟩

/-- `run_rules(facts, rules)`: the matching rules are collected in
declaration order; if none match the default action is returned,
otherwise the action of the first rule of the stably descending-sorted
matched list. -/
def run_rules (facts : Facts) (rules : List Rule) :
    Except Unit (Action × List Rule) :=
  match filterMatches facts rules with
  | .error e => .error e
  | .ok [] => .ok (defaultAction, [])
  | .ok (m :: ms) =>
    .ok (((sortDesc (m :: ms)).headD dummyRule).action, sortDesc (m :: ms))

/-- The matched rules in declaration order, as a pure list (the value of
`matched_rules` before sorting, on an error-free evaluation). -/
def matchedRules (facts : Facts) (rules : List Rule) : List Rule :=
  rules.filter (fun r =>
    match rule_matches facts r with
    | .ok true => true
    | _ => false)

/-! ### Properties of condition and rule evaluation -/

theorem allConds_iff (facts : Facts) : ∀ conds : List Cond,
    allConds facts conds = .ok true ↔
      ∀ c ∈ conds, evaluate_condition facts c = .ok true := by
  intro conds
  induction conds with
  | nil => simp [allConds]
  | cons c cs ih =>
    rw [allConds]
    cases h : evaluate_condition facts c with
    | error e =>
      constructor
      · intro hc
        exact absurd hc (by simp)
      · intro hall
        have := hall c (List.mem_cons_self _ _)
        rw [h] at this
        exact absurd this (by simp)
    | ok b =>
      cases b
      · constructor
        · intro hc
          exact absurd hc (by simp)
        · intro hall
          have := hall c (List.mem_cons_self _ _)
          rw [h] at this
          exact absurd this (by simp)
      · rw [ih]
        constructor
        · intro hall c0 hc0
          rcases List.mem_cons.1 hc0 with h1 | h1
          · rw [h1]
            exact h
          · exact hall c0 h1
        · intro hall c0 hc0
          exact hall c0 (List.mem_cons_of_mem _ hc0)

theorem allConds_ne_true {facts : Facts} {c : Cond}
    (hfalse : evaluate_condition facts c = .ok false) :
    ∀ conds : List Cond, c ∈ conds → allConds facts conds ≠ .ok true := by
  intro conds
  induction conds with
  | nil => intro h; cases h
  | cons c0 cs ih =>
    intro hmem
    rw [allConds]
    cases h0 : evaluate_condition facts c0 with
    | error e => simp
    | ok b =>
      cases b
      · simp
      · rcases List.mem_cons.1 hmem with h1 | h1
        · exfalso
          rw [← h1, hfalse] at h0
          exact absurd h0 (by simp)
        · exact ih h1

theorem filterMatches_eq (facts : Facts) : ∀ (rules : List Rule)
    (m : List Rule), filterMatches facts rules = .ok m →
    m = matchedRules facts rules := by
  intro rules
  induction rules with
  | nil =>
    intro m hm
    rw [filterMatches] at hm
    simp only [matchedRules, List.filter_nil]
    exact (Except.ok.inj hm).symm
  | cons r rs ih =>
    intro m hm
    rw [filterMatches] at hm
    cases hb : rule_matches facts r with
    | error e =>
      rw [hb] at hm
      exact absurd hm (by simp)
    | ok b =>
      rw [hb] at hm
      cases hrest : filterMatches facts rs with
      | error e =>
        rw [hrest] at hm
        exact absurd hm (by simp)
      | ok rest =>
        rw [hrest] at hm
        have hm2 := (Except.ok.inj hm).symm
        have hrw := ih rest hrest
        simp only [matchedRules] at hrw ⊢
        rw [hm2, List.filter_cons]
        cases b
        · simp only [hb]
          simpa using hrw
        · simp only [hb]
          simpa using hrw

/-! ### Properties of the stable descending sort -/

theorem insertDesc_length (r : Rule) :
    ∀ l : List Rule, (insertDesc r l).length = l.length + 1 := by
  intro l
  induction l with
  | nil => rfl
  | cons x xs ih =>
    rw [insertDesc]
    by_cases h : x.priority ≤ r.priority
    · rw [if_pos h]
      simp
    · rw [if_neg h]
      simp [ih]

theorem sortDesc_length : ∀ l : List Rule, (sortDesc l).length = l.length := by
  intro l
  induction l with
  | nil => rfl
  | cons x xs ih =>
    show (insertDesc x (sortDesc xs)).length = xs.length + 1
    rw [insertDesc_length, ih]

theorem sortDesc_head_spec : ∀ l : List Rule, l ≠ [] →
    ∃ i, i < l.length ∧
      (sortDesc l).headD dummyRule = l.getD i dummyRule ∧
      (∀ j < l.length, (l.getD j dummyRule).priority ≤
        (l.getD i dummyRule).priority) ∧
      (∀ j < l.length, j < i → (l.getD j dummyRule).priority <
        (l.getD i dummyRule).priority) := by
  intro l
  induction l with
  | nil => intro h; exact absurd rfl h
  | cons a l ih =>
    intro _
    rcases eq_or_ne l [] with rfl | hl
    · refine ⟨0, by simp, rfl, ?_, ?_⟩
      · intro j hj
        have hj0 : j = 0 := by simpa using hj
        rw [hj0]
      · intro j hj hj0
        omega
    · obtain ⟨i, hi, hhead, hmax, hfirst⟩ := ih hl
      have hsne : sortDesc l ≠ [] := by
        intro hnil
        have := sortDesc_length l
        rw [hnil] at this
        exact hl (List.length_eq_zero.1 (by simpa using this.symm))
      cases hs : sortDesc l with
      | nil => exact absurd hs hsne
      | cons x xs =>
        have hxval : x = l.getD i dummyRule := by
          rw [← hhead, hs]
          rfl
        have hstep : sortDesc (a :: l) = insertDesc a (sortDesc l) := rfl
        by_cases hcmp : x.priority ≤ a.priority
        · refine ⟨0, by simp, ?_, ?_, ?_⟩
          · rw [hstep, hs, insertDesc, if_pos hcmp]
            rfl
          · intro j hj
            cases j with
            | zero => exact le_refl _
            | succ j =>
              simp only [List.getD_cons_succ, List.getD_cons_zero]
              calc (l.getD j dummyRule).priority
                  ≤ (l.getD i dummyRule).priority :=
                    hmax j (by simpa using hj)
                _ = x.priority := hxval.symm ▸ rfl
                _ ≤ a.priority := hcmp
          · intro j hj hj0
            omega
        · have hlt : a.priority < x.priority := not_le.1 hcmp
          refine ⟨i + 1, by simpa using hi, ?_, ?_, ?_⟩
          · rw [hstep, hs, insertDesc, if_neg hcmp]
            simp only [List.headD_cons, List.getD_cons_succ]
            rw [hxval]
          · intro j hj
            cases j with
            | zero =>
              simp only [List.getD_cons_succ, List.getD_cons_zero]
              rw [← hxval]
              exact le_of_lt hlt
            | succ j =>
              simp only [List.getD_cons_succ]
              exact hmax j (by simpa using hj)
          · intro j hj hji
            cases j with
            | zero =>
              simp only [List.getD_cons_succ, List.getD_cons_zero]
              rw [← hxval]
              exact hlt
            | succ j =>
              simp only [List.getD_cons_succ]
              exact hfirst j (by simpa using hj) (by omega)

/-! ### Concrete values used by the witnesses -/

/-- Concrete action used by witnesses. -/
def actW : Action := ⟨"COOL", "LOW", some 25, "warm"⟩

/-- Concrete matching rule of priority 10. -/
def ruleA : Rule := ⟨"A", 10, [⟨"x", ">=", .int 5⟩], actW⟩

/-- Concrete non-matching rule of priority 20. -/
def ruleB : Rule := ⟨"B", 20, [⟨"x", ">=", .int 100⟩], ⟨"ECO", "HIGH", some 27, "eco"⟩⟩

/-- Concrete matching rule of priority 10 declared after `ruleA`. -/
def ruleC : Rule := ⟨"C", 10, [⟨"x", "<", .int 50⟩], ⟨"OFF", "AUTO", Option.none, "off"⟩⟩

/-- Concrete fact set used by witnesses. -/
def factsW : Facts := [("x", .int 7)]

/-! ### Claim theorems for `q2_ai_lab_test_.py` -/

/-- C9: on any error-free evaluation, a rule matches iff all its
conditions evaluate true, a condition on a missing field evaluates to
false rather than erroring, an empty matched set yields the fixed
default action, and otherwise the returned action belongs to a matched
rule of maximal priority that is the first-declared among the matched
rules attaining that priority. -/
theorem run_rules_spec (facts : Facts) (rules : List Rule) (a : Action)
    (ms : List Rule) (hrun : run_rules facts rules = .ok (a, ms)) :
    (∀ r : Rule, rule_matches facts r = .ok true ↔
      ∀ c ∈ r.conditions, evaluate_condition facts c = .ok true) ∧
    (∀ (f op : String) (v : Value), facts.lookup f = Option.none →
      evaluate_condition facts ⟨f, op, v⟩ = .ok false) ∧
    ((∀ r ∈ rules, rule_matches facts r ≠ .ok true) → a = defaultAction) ∧
    (matchedRules facts rules ≠ [] →
      ∃ i, i < (matchedRules facts rules).length ∧
        a = ((matchedRules facts rules).getD i dummyRule).action ∧
        (∀ j < (matchedRules facts rules).length,
          ((matchedRules facts rules).getD j dummyRule).priority ≤
            ((matchedRules facts rules).getD i dummyRule).priority) ∧
        (∀ j < (matchedRules facts rules).length, j < i →
          ((matchedRules facts rules).getD j dummyRule).priority <
            ((matchedRules facts rules).getD i dummyRule).priority)) := by
  have hfm : ∃ m, filterMatches facts rules = .ok m := by
    cases hf : filterMatches facts rules with
    | error e =>
      rw [run_rules, hf] at hrun
      exact absurd hrun (by simp)
    | ok m => exact ⟨m, rfl⟩
  obtain ⟨m, hm⟩ := hfm
  have hmeq : m = matchedRules facts rules := filterMatches_eq facts rules m hm
  refine ⟨fun r => allConds_iff facts r.conditions,
    fun f op v h => by simp [evaluate_condition, h], ?_, ?_⟩
  · intro hnone
    have hempty : matchedRules facts rules = [] := by
      rw [matchedRules, List.filter_eq_nil_iff]
      intro r hr
      cases hb : rule_matches facts r with
      | error e => simp [hb]
      | ok b =>
        cases b
        · simp [hb]
        · exact absurd hb (hnone r hr)
    have hmnil : m = [] := hmeq.trans hempty
    rw [run_rules, hm, hmnil] at hrun
    have := Except.ok.inj hrun
    exact (congrArg Prod.fst this).symm
  · intro hne
    have hmne : m ≠ [] := by
      rw [hmeq]
      exact hne
    obtain ⟨i, hi, hhead, hmax, hfirst⟩ := sortDesc_head_spec m hmne
    have ha : a = ((sortDesc m).headD dummyRule).action := by
      rw [run_rules, hm] at hrun
      cases m with
      | nil => exact absurd rfl hmne
      | cons m0 ms0 =>
        have := Except.ok.inj hrun
        exact (congrArg Prod.fst this).symm
    rw [← hmeq]
    exact ⟨i, hi, by rw [ha, hhead], hmax, hfirst⟩

theorem run_rules_spec_witness :
    run_rules factsW [ruleA, ruleB, ruleC] = .ok (actW, [ruleA, ruleC]) ∧
    ((∀ r : Rule, rule_matches factsW r = .ok true ↔
      ∀ c ∈ r.conditions, evaluate_condition factsW c = .ok true) ∧
    (∀ (f op : String) (v : Value), factsW.lookup f = Option.none →
      evaluate_condition factsW ⟨f, op, v⟩ = .ok false) ∧
    ((∀ r ∈ [ruleA, ruleB, ruleC], rule_matches factsW r ≠ .ok true) →
      actW = defaultAction) ∧
    (matchedRules factsW [ruleA, ruleB, ruleC] ≠ [] →
      ∃ i, i < (matchedRules factsW [ruleA, ruleB, ruleC]).length ∧
        actW = ((matchedRules factsW [ruleA, ruleB, ruleC]).getD i
          dummyRule).action ∧
        (∀ j < (matchedRules factsW [ruleA, ruleB, ruleC]).length,
          ((matchedRules factsW [ruleA, ruleB, ruleC]).getD j
            dummyRule).priority ≤
          ((matchedRules factsW [ruleA, ruleB, ruleC]).getD i
            dummyRule).priority) ∧
        (∀ j < (matchedRules factsW [ruleA, ruleB, ruleC]).length, j < i →
          ((matchedRules factsW [ruleA, ruleB, ruleC]).getD j
            dummyRule).priority <
          ((matchedRules factsW [ruleA, ruleB, ruleC]).getD i
            dummyRule).priority))) :=
  ⟨rfl, run_rules_spec factsW [ruleA, ruleB, ruleC] actW [ruleA, ruleC] rfl⟩

/-- C10: a condition whose operator is not one of the six supported
operator strings evaluates to false (not an error) on any fact set, and
a rule containing such a condition never matches. -/
theorem unknown_op_no_match (facts : Facts) (c : Cond) (r : Rule)
    (hop : c.op ∉ OPS_KEYS) (hc : c ∈ r.conditions) :
    evaluate_condition facts c = .ok false ∧
    rule_matches facts r ≠ .ok true := by
  have hfalse : evaluate_condition facts c = .ok false := by
    rw [evaluate_condition]
    cases hl : facts.lookup c.field with
    | none => rfl
    | some v => simp [hop]
  exact ⟨hfalse, allConds_ne_true hfalse r.conditions hc⟩

theorem unknown_op_no_match_witness :
    ((⟨"x", "~", .int 1⟩ : Cond).op ∉ OPS_KEYS ∧
      (⟨"x", "~", .int 1⟩ : Cond) ∈
        (⟨"D", 5, [⟨"x", "~", .int 1⟩], actW⟩ : Rule).conditions) ∧
    (evaluate_condition factsW ⟨"x", "~", .int 1⟩ = .ok false ∧
      rule_matches factsW ⟨"D", 5, [⟨"x", "~", .int 1⟩], actW⟩ ≠ .ok true) :=
  ⟨⟨by decide, by decide⟩,
    unknown_op_no_match factsW ⟨"x", "~", .int 1⟩
      ⟨"D", 5, [⟨"x", "~", .int 1⟩], actW⟩ (by decide) (by decide)⟩

end RuleEngine
